import Mathlib

/-!
Shallow embedding of `ghpythonutil` (treehandler.py, contextmanager.py).

The development models the Grasshopper `DataTree` broadcasting decorator
`TreeHandler` and the `_Dimension` helper class, together with the
`RhinoDocContext` scoped document context.  Python lists become Lean
`List`s, Python integers become `Nat`, fallible code returns `Except`.
-/

namespace GhUtil

/-- Values manipulated by the tree handler: an atomic item, or a Python
list of values (list values arise from `list`-access wrapping and from
list-valued results of the user function). -/
inductive Val where
  | atom : Nat → Val
  | vlist : List Val → Val

instance : Inhabited Val := ⟨Val.atom 0⟩

/-- Embeds the Python test `isinstance(x, list)`. -/
def Val.isList : Val → Bool
  | .vlist _ => true
  | .atom _ => false

/-- Elements of a Python list value, as consumed by `DataTree.AddRange`
(a non-list value never reaches `AddRange` in the list-result branch). -/
def Val.elements : Val → List Val
  | .vlist l => l
  | .atom n => [Val.atom n]

/-- Grasshopper `DataTree`: an ordered association of integer-tuple paths
to branches (ordered sequences of items). -/
structure DataTree (α : Type) where
  branches : List (List Nat × List α)

/-- Embeds `DataTree.BranchCount`. -/
def DataTree.BranchCount (t : DataTree α) : Nat := t.branches.length

/-- Embeds `DataTree.Path(i)`: the path of the i-th branch in iteration
order. -/
def DataTree.PathAt (t : DataTree α) (i : Nat) : List Nat :=
  (t.branches.getD i ([], [])).1

/-- Embeds `DataTree.Branch(path)`: the branch stored at the given path
(empty when the path is absent). -/
def DataTree.Branch (t : DataTree α) (p : List Nat) : List α :=
  ((t.branches.find? (fun b => b.1 == p)).map (fun b => b.2)).getD []

/-- Embeds the `_Dimension` class: the recorded index tuple together with
the trailing-zeroes count. -/
structure Dimension where
  indices : List Nat
  trailingZeroes : Nat
  deriving DecidableEq, Repr

/-- Embeds `_Dimension.length`: `len(self._indices) - self._trailingZeroes`. -/
def Dimension.length (d : Dimension) : Nat := d.indices.length - d.trailingZeroes

/-- Well-formedness maintained by `getDim` and `matchDims`: the
trailing-zeroes count never exceeds the number of indices. -/
def Dimension.WF (d : Dimension) : Prop := d.trailingZeroes ≤ d.indices.length

/-- Embeds the trailing-zero loop of `_Dimension.getDim`
(`for i in indices[::-1]: if i != 0: break; trailingZeroes += 1`),
applied to the reversed index list. -/
def countLeadingZeroes : List Nat → Nat
  | [] => 0
  | i :: rest => if i ≠ 0 then 0 else countLeadingZeroes rest + 1

/-- Embeds `_Dimension.getDim`: take the last path in iteration order,
count its trailing zeroes when the tree has more than one branch, and
increment each raw index by one. -/
def getDim (t : DataTree α) : Dimension :=
  let branchCount := t.BranchCount
  let rawIndices := t.PathAt (branchCount - 1)
  let trailingZeroes := if branchCount > 1 then countLeadingZeroes rawIndices.reverse else 0
  ⟨rawIndices.map (· + 1), trailingZeroes⟩

/-- Python `max` over a list of naturals (`max([...])`); on the non-empty
lists the source applies it to, this is the true maximum. -/
def pyMaxNat (l : List Nat) : Nat := l.foldl max 0

/-- Inner loop of `_Dimension.matchDims` for one argument dimension:
starting at slot `j`, raise each successive slot of `m` to the
corresponding index when that index is larger. -/
def raiseFrom (m : List Nat) (j : Nat) : List Nat → List Nat
  | [] => m
  | x :: xs => raiseFrom (if x > m.getD j 0 then m.set j x else m) (j + 1) xs

/-- Embeds `_Dimension.matchDims`. -/
def matchDims (dims : List Dimension) : Dimension :=
  let length := pyMaxNat (dims.map Dimension.length)
  let trailingZeroes := pyMaxNat (dims.map Dimension.trailingZeroes)
  let init := List.replicate (length + trailingZeroes) 1
  let matched := dims.foldl (fun m d => raiseFrom m (length - d.length) d.indices) init
  ⟨matched, trailingZeroes⟩

/-- Python `reduce(lambda a, b: a*b, iterable)` (no initializer; the
source only applies it to non-empty lists). -/
def reduceMul : List Nat → Nat
  | [] => 1
  | x :: xs => xs.foldl (· * ·) x

/-- Embeds `TreeHandler.__generatePathsIndices`: all path coordinates of
a dimension, by integer-to-mixed-radix conversion. -/
def generatePathsIndices (dim : Dimension) : List (List Nat) :=
  let indices := dim.indices
  let size := reduceMul indices
  let rep := (List.range indices.length).map fun i => size / reduceMul (indices.take (i + 1))
  (List.range size).map fun j => (rep.zip indices).map fun rd => j / rd.1 % rd.2

/-- Embeds `_Dimension.__getUnmatchIndex`: the start of the unmatch slice,
`matchedDim.length - self.length`. -/
def unmatchStart (matched d : Dimension) : Nat := matched.length - d.length

/-- Embeds `_Dimension.unmatch`: the slice `indices[j : k]` with
`j = start` and `k = start + len(self.indices)`. -/
def unmatch (d matched : Dimension) (indices : List Nat) : List Nat :=
  (indices.drop (unmatchStart matched d)).take d.indices.length

/-- Embeds `TreeHandler._ACCESS.item`. -/
def ACCESS_item : Nat := 0

/-- Embeds `TreeHandler._ACCESS.tree`. -/
def ACCESS_tree : Nat := 0

/-- Embeds `TreeHandler._ACCESS.list`. -/
def ACCESS_list : Nat := 1

/-- Embeds `TreeHandler._ACCESS_DICT`. -/
def ACCESS_DICT : List (String × Nat) :=
  [("item", ACCESS_item), ("tree", ACCESS_tree), ("list", ACCESS_list)]

/-- Embeds `TreeHandler.__branchWrapper`: clamp the unmatch slice of the
coordinate against the argument dimension, then fetch the branch at that
path, wrapping it as a single (list) value under `list` access. -/
def branchWrapper (tree : DataTree Val) (d matched : Dimension) (pathIndices : List Nat)
    (access : Nat) : List Val :=
  let unmatchedIndices := ((unmatch d matched pathIndices).zip d.indices).map
    fun p => min p.1 (p.2 - 1)
  if access = ACCESS_list then [Val.vlist (tree.Branch unmatchedIndices)]
  else tree.Branch unmatchedIndices

/-- Embeds `TreeHandler.__dataWrapper`: zip the branches into rows of the
longest length, repeating the last item of any shorter branch. -/
def dataWrapper [Inhabited α] (branches : List (List α)) : List (List α) :=
  let l := pyMaxNat (branches.map List.length)
  (List.range l).map fun i => branches.map fun b => b.getD (min (b.length - 1) i) default

/-- One coordinate's branch list inside `TreeHandler.__call__`:
`[self.__branchWrapper(args[i], dims[i], indices, access[i]) for i in range(len(args))]`. -/
def branchesAt (args : List (DataTree Val)) (dims : List Dimension) (matched : Dimension)
    (access : List Nat) (indices : List Nat) : List (List Val) :=
  (List.range args.length).map fun i =>
    branchWrapper (args.getD i ⟨[]⟩) (dims.getD i ⟨[], 0⟩) matched indices (access.getD i 0)

/-- Embeds the broadcast loop of `TreeHandler.__call__` over already
normalized tree arguments and resolved access modes: enumerate the
matched coordinates, build the per-coordinate rows, invoke the user
function on each row, and add the results at the coordinate's path (or,
when the first result is a list, at one sub-path per row).  On rows the
Python source would crash on (no entries at a coordinate), the model adds
an empty branch at the coordinate. -/
def callOnTrees (f : List Val → Val) (args : List (DataTree Val)) (access : List Nat) :
    DataTree Val :=
  let dims := args.map getDim
  let matchedDim := matchDims dims
  let pathsIndices := generatePathsIndices matchedDim
  ⟨pathsIndices.flatMap fun indices =>
    let entries := (dataWrapper (branchesAt args dims matchedDim access indices)).map f
    match entries.head? with
    | some v =>
      if v.isList then entries.enum.map fun ie => (indices ++ [ie.1], ie.2.elements)
      else [(indices, entries)]
    | none => [(indices, entries)]⟩

/-- A positional argument as passed to the decorated function, classified
the way `TreeHandler.__toTree` dispatches on it: a `DataTree`, a Python
list, or anything else (a scalar). -/
inductive PyArg where
  | tree : DataTree Val → PyArg
  | plist : List Val → PyArg
  | scalar : Val → PyArg

/-- Modelled from the behaviour of the external
`ghpythonlib.treehelpers.list_to_tree` on a flat item list (the only way
the source applies it to a scalar wrap): a tree with the single branch
`{0}` holding the list. -/
def list_to_tree (l : List Val) : DataTree Val := ⟨[([0], l)]⟩

/-- Embeds `TreeHandler.__toTree`. -/
def toTree : PyArg → DataTree Val
  | .tree t => t
  | .plist l => list_to_tree l
  | .scalar v => list_to_tree [v]

/-- Embeds `TreeHandler.__parseAccess`: look an access tag up in
`_ACCESS_DICT`, raising a `KeyError` naming the offending tag when it is
unknown. -/
def parseAccess (key : String) : Except String Nat :=
  match ACCESS_DICT.lookup key with
  | some a => Except.ok a
  | none => Except.error ("Invalid parameter access: " ++ key ++
      ". Access type must be item, list, or tree.")

/-- Embeds `TreeHandler.__parseDefaultArgs`: locate the `access`
parameter among the function's argument names (raising when absent) and
return its default value. -/
def parseDefaultArgs (argNames : List String) (defaults : List (List String)) :
    Except String (List String) :=
  match argNames.indexOf? "access" with
  | none => Except.error "access default argument not found. It must be specified in the function definition."
  | some idx =>
    let numPosArgs := argNames.length - defaults.length
    Except.ok (defaults.getD (idx - numPosArgs) [])

/-- Eager left-to-right Python 2 `map(self.__parseAccess, tags)`: the
first invalid tag raises. -/
def mapParseAccess : List String → Except String (List Nat)
  | [] => Except.ok []
  | t :: ts =>
    match parseAccess t with
    | Except.error e => Except.error e
    | Except.ok a =>
      match mapParseAccess ts with
      | Except.error e => Except.error e
      | Except.ok as => Except.ok (a :: as)

/-- Embeds `TreeHandler.__init__`: parse the default access declaration
and eagerly map every tag through `__parseAccess` (Python 2 `map` is
eager, so an invalid tag raises at decoration time). -/
def treeHandlerInit (argNames : List String) (defaults : List (List String)) :
    Except String (List Nat) :=
  match parseDefaultArgs argNames defaults with
  | Except.error e => Except.error e
  | Except.ok tags => mapParseAccess tags

/-- Embeds the access resolution at the top of `TreeHandler.__call__`:
with no keyword arguments the decoration-time access is used; otherwise
the tags are re-parsed from `kwargs.get("access")`, and when that lookup
yields `None` the iteration over it raises a `TypeError`. -/
def callAccess (declAccess : List Nat) (kwargs : List (String × List String)) :
    Except String (List Nat) :=
  if kwargs.isEmpty then Except.ok declAccess
  else
    match kwargs.lookup "access" with
    | none => Except.error "TypeError: NoneType object is not iterable"
    | some tags => mapParseAccess tags

/-- Embeds `RhinoDocContext` used in a `with` block around `body`: at
construction the current `sc.doc` is captured as `ghdoc`, `__enter__`
sets `sc.doc` to the Rhino document, the body runs (it may read and
update `sc.doc` and may raise), and `__exit__` restores `sc.doc` to the
captured value on both the normal and the raising path. -/
def runRhinoDocContext {Doc E A : Type} (rhinodoc : Doc) (body : Doc → Except E A × Doc)
    (doc0 : Doc) : Except E A × Doc :=
  let ghdoc := doc0
  let r := body rhinodoc
  (r.1, ghdoc)

/-! Helper lemmas about `pyMaxNat`. -/

theorem le_foldl_max (l : List Nat) : ∀ a : Nat, a ≤ l.foldl max a := by
  induction l with
  | nil => intro a; exact Nat.le_refl a
  | cons x xs ih => intro a; exact le_trans (le_max_left a x) (ih (max a x))

theorem mem_le_foldl_max (l : List Nat) : ∀ a : Nat, ∀ x ∈ l, x ≤ l.foldl max a := by
  induction l with
  | nil => intro a x hx; cases hx
  | cons y ys ih =>
    intro a x hx
    rcases List.mem_cons.mp hx with h | h
    · subst h; exact le_trans (le_max_right a x) (le_foldl_max ys (max a x))
    · exact ih (max a y) x h

theorem foldl_max_attained (l : List Nat) : ∀ a : Nat, l.foldl max a = a ∨ l.foldl max a ∈ l := by
  induction l with
  | nil => intro a; exact Or.inl rfl
  | cons y ys ih =>
    intro a
    rcases ih (max a y) with h | h
    · rcases max_choice a y with hm | hm
      · exact Or.inl (by rw [List.foldl_cons, h, hm])
      · exact Or.inr (by rw [List.foldl_cons, h, hm]; exact List.mem_cons_self y ys)
    · exact Or.inr (List.mem_cons_of_mem y h)

theorem le_pyMaxNat (l : List Nat) (x : Nat) (hx : x ∈ l) : x ≤ pyMaxNat l :=
  mem_le_foldl_max l 0 x hx

theorem pyMaxNat_mem (l : List Nat) (h : l ≠ []) : pyMaxNat l ∈ l := by
  rcases foldl_max_attained l 0 with h0 | hmem
  · cases l with
    | nil => exact absurd rfl h
    | cons y ys =>
      have hy : y ≤ pyMaxNat (y :: ys) := le_pyMaxNat _ y (List.mem_cons_self y ys)
      have h0' : pyMaxNat (y :: ys) = 0 := h0
      have hy0 : y = 0 := Nat.le_antisymm (h0' ▸ hy) (Nat.zero_le y)
      rw [h0', hy0]
      exact List.mem_cons_self 0 ys
  · exact hmem

/-! C8: the scalar-to-Tree round trip. -/

/-- C8: for every scalar value, normalizing it with `__toTree` into a
singleton Tree and extracting that Tree's Shape with `getDim` yields
indices (1,) and trailingZeroes 0. -/
theorem scalar_roundtrip_dim (v : Val) :
    getDim (toTree (PyArg.scalar v)) = ⟨[1], 0⟩ := rfl

/-! C9: the scoped document context restores the active document. -/

/-- C9: for every use of `RhinoDocContext` around a body, the active
document pointer after the scope exits equals what it was before entry,
on every exit path (the body may return normally or raise; either way the
result of the body is propagated unchanged and `sc.doc` is restored). -/
theorem rhinoDocContext_restores {Doc E A : Type} (rhinodoc : Doc)
    (body : Doc → Except E A × Doc) (doc0 : Doc) :
    (runRhinoDocContext rhinodoc body doc0).2 = doc0 ∧
    (runRhinoDocContext rhinodoc body doc0).1 = (body rhinodoc).1 :=
  ⟨rfl, rfl⟩

/-! C10: per-call keyword access override. -/

/-- C10: when a call passes at least one keyword argument, the
decoration-time access declaration is ignored (the result does not
depend on it), the access modes are re-parsed from the value bound to
the keyword `access`, and if keyword arguments are present but `access`
is not among them the call fails. -/
theorem kwargs_access_override (declAccess : List Nat)
    (kwargs : List (String × List String)) (h : kwargs ≠ []) :
    (∀ d2, callAccess declAccess kwargs = callAccess d2 kwargs) ∧
    (kwargs.lookup "access" = none →
      ∃ e, callAccess declAccess kwargs = Except.error e) ∧
    (∀ tags, kwargs.lookup "access" = some tags →
      callAccess declAccess kwargs = mapParseAccess tags) := by
  have hne : kwargs.isEmpty = false := by
    cases kwargs with
    | nil => exact absurd rfl h
    | cons a l => rfl
  refine ⟨fun d2 => by simp [callAccess, hne], fun hl => ?_, fun tags hl => ?_⟩
  · exact ⟨"TypeError: NoneType object is not iterable", by simp [callAccess, hne, hl]⟩
  · simp [callAccess, hne, hl]

/-- Witness for C10 at a concrete call: one keyword argument is present
but `access` is not among the keywords, and the call fails. -/
theorem kwargs_access_override_witness :
    ([("other", ["item"])] : List (String × List String)) ≠ [] ∧
    (∃ e, callAccess [ACCESS_item] [("other", ["item"])] = Except.error e) := by
  refine ⟨by simp, (kwargs_access_override [ACCESS_item] [("other", ["item"])] (by simp)).2.1 ?_⟩
  rfl

/-! C7: which configuration mistakes fail at decoration time. -/

theorem mapParseAccess_error (tags : List String) (key : String)
    (hk : key ∈ tags) (he : ACCESS_DICT.lookup key = none) :
    ∃ e, mapParseAccess tags = Except.error e := by
  induction tags with
  | nil => cases hk
  | cons t ts ih =>
    rcases List.mem_cons.mp hk with h | h
    · subst h
      refine ⟨"Invalid parameter access: " ++ key ++
        ". Access type must be item, list, or tree.", ?_⟩
      simp [mapParseAccess, parseAccess, he]
    · cases ht : ACCESS_DICT.lookup t with
      | none =>
        refine ⟨"Invalid parameter access: " ++ t ++
          ". Access type must be item, list, or tree.", ?_⟩
        simp [mapParseAccess, parseAccess, ht]
      | some a =>
        obtain ⟨e, hmap⟩ := ih h
        exact ⟨e, by simp [mapParseAccess, parseAccess, ht, hmap]⟩

/-- Counterexample to C7 as stated: a tag count that does not match the
number of broadcastable parameters (here one tag for the two parameters
`a` and `b`) does not make the decoration raise — `TreeHandler.__init__`
succeeds and returns a parsed access list. -/
theorem wrong_tag_count_decorates :
    treeHandlerInit ["a", "b", "access"] [["item"]] = Except.ok [ACCESS_item] := by
  rfl

/-- C7 (amended): a missing `access` default argument or an unrecognized
access tag in the decoration-time declaration fails at decoration time,
and an unrecognized tag fails with an invalid-configuration error
identifying the offending string; a wrong tag count, however, does not
fail at decoration time (it is only detected, if at all, when the
decorated function is called). -/
theorem decoration_time_errors :
    (∀ (argNames : List String) (defaults : List (List String)), "access" ∉ argNames →
      ∃ e, treeHandlerInit argNames defaults = Except.error e) ∧
    (∀ key, ACCESS_DICT.lookup key = none →
      parseAccess key = Except.error ("Invalid parameter access: " ++ key ++
        ". Access type must be item, list, or tree.")) ∧
    (∀ (argNames : List String) (defaults : List (List String)) (tags : List String)
        (key : String), parseDefaultArgs argNames defaults = Except.ok tags →
      key ∈ tags → ACCESS_DICT.lookup key = none →
      ∃ e, treeHandlerInit argNames defaults = Except.error e) := by
  refine ⟨fun argNames defaults hmem => ?_, fun key hk => ?_, ?_⟩
  · have hidx : argNames.indexOf? "access" = none := by
      rw [List.indexOf?_eq_none_iff]
      intro x hx
      simp only [beq_iff_eq]
      exact fun hxe => hmem (hxe ▸ hx)
    exact ⟨"access default argument not found. It must be specified in the function definition.",
      by simp [treeHandlerInit, parseDefaultArgs, hidx]⟩
  · simp [parseAccess, hk]
  · intro argNames defaults tags key hparse hkt hkey
    obtain ⟨e, hmap⟩ := mapParseAccess_error tags key hkt hkey
    exact ⟨e, by simp [treeHandlerInit, hparse, hmap]⟩

/-- Witness for C7 at concrete declarations: a function whose parameters
lack `access` fails to decorate, the tag `foo` fails naming itself, and a
declaration carrying the invalid tag `bogus` fails to decorate. -/
theorem decoration_time_errors_witness :
    (∃ e, treeHandlerInit ["a", "b"] [["item"]] = Except.error e) ∧
    parseAccess "foo" = Except.error ("Invalid parameter access: " ++ "foo" ++
      ". Access type must be item, list, or tree.") ∧
    (∃ e, treeHandlerInit ["a", "access"] [["bogus"]] = Except.error e) := by
  refine ⟨decoration_time_errors.1 ["a", "b"] [["item"]] (by simp),
    decoration_time_errors.2.1 "foo" rfl,
    decoration_time_errors.2.2 ["a", "access"] [["bogus"]] ["bogus"] "bogus" rfl
      (List.mem_cons_self _ _) rfl⟩

/-! C2: last-element padding when zipping branches into rows. -/

theorem dataWrapper_length [Inhabited α] (branches : List (List α)) :
    (dataWrapper branches).length = pyMaxNat (branches.map List.length) := by
  simp [dataWrapper]

theorem dataWrapper_getD [Inhabited α] (branches : List (List α)) (i : Nat)
    (hi : i < (dataWrapper branches).length) :
    (dataWrapper branches).getD i [] =
      branches.map fun b => b.getD (min i (b.length - 1)) default := by
  rw [dataWrapper_length] at hi
  have : (dataWrapper branches).getD i [] =
      branches.map fun b => b.getD (min (b.length - 1) i) default := by
    rw [List.getD_eq_getElem?_getD]
    simp only [dataWrapper, List.getElem?_map]
    rw [List.getElem?_range hi]
    rfl
  rw [this]
  refine List.map_congr_left fun b _ => by rw [Nat.min_comm]

/-- C2: for every list of non-empty branches being zipped at one
coordinate, `__dataWrapper` produces exactly max-branch-length rows (no
branch is truncated, and the row count is attained by some branch), and
row i takes from each branch the element at position
min(i, len(branch) - 1), so a shorter branch repeats its final element. -/
theorem dataWrapper_rows [Inhabited α] (branches : List (List α))
    (hne : branches ≠ []) (hb : ∀ b ∈ branches, b ≠ []) :
    (∀ b ∈ branches, b.length ≤ (dataWrapper branches).length) ∧
    (∃ b ∈ branches, b.length = (dataWrapper branches).length) ∧
    ∀ i < (dataWrapper branches).length,
      (dataWrapper branches).getD i [] =
        branches.map fun b => b.getD (min i (b.length - 1)) default := by
  refine ⟨fun b hbm => ?_, ?_, fun i hi => dataWrapper_getD branches i hi⟩
  · rw [dataWrapper_length]
    exact le_pyMaxNat _ _ (List.mem_map_of_mem List.length hbm)
  · have hmem := pyMaxNat_mem (branches.map List.length) (by simpa using hne)
    obtain ⟨b, hbm, hblen⟩ := List.mem_map.mp hmem
    exact ⟨b, hbm, by rw [dataWrapper_length, hblen]⟩

/-- Witness for C2 at branches [1,2,3] and [7]: three rows are produced
and the padded pairing is (1,7),(2,7),(3,7). -/
theorem dataWrapper_rows_witness :
    dataWrapper ([[1, 2, 3], [7]] : List (List Nat)) = [[1, 7], [2, 7], [3, 7]] ∧
    (∀ b ∈ ([[1, 2, 3], [7]] : List (List Nat)),
      b.length ≤ (dataWrapper ([[1, 2, 3], [7]] : List (List Nat))).length) := by
  refine ⟨by decide, (dataWrapper_rows ([[1, 2, 3], [7]] : List (List Nat))
    (by decide) (by decide)).1⟩

/-! C3: a list-access argument always arrives as one whole sequence. -/

/-- C3: for an argument whose access mode is `list`, `__branchWrapper`
wraps the entire branch as the single element of the produced list, and
every row built by `__dataWrapper` hands the user function that whole
branch (one sequence value) at slot k — the branch is never split into
per-element rows. -/
theorem list_access_whole_branch (tree : DataTree Val) (d matched : Dimension)
    (c : List Nat) (branches : List (List Val)) (k : Nat) (hk : k < branches.length)
    (hbk : branches.getD k [] = branchWrapper tree d matched c ACCESS_list) :
    ∃ p, branchWrapper tree d matched c ACCESS_list = [Val.vlist (tree.Branch p)] ∧
      ∀ i < (dataWrapper branches).length,
        ((dataWrapper branches).getD i []).getD k default = Val.vlist (tree.Branch p) := by
  have hB : branchWrapper tree d matched c ACCESS_list =
      [Val.vlist (tree.Branch (((unmatch d matched c).zip d.indices).map
        fun p => min p.1 (p.2 - 1)))] := by
    simp [branchWrapper]
  refine ⟨_, hB, ?_⟩
  intro i hi
  rw [dataWrapper_getD branches i hi]
  have hbk' : branches[k] = branchWrapper tree d matched c ACCESS_list := by
    rw [← List.getD_eq_getElem (l := branches) (d := []) hk]; exact hbk
  rw [List.getD_eq_getElem _ _ (by simpa using hk), List.getElem_map, hbk', hB]
  simp

/-- Witness for C3: a two-element branch under `list` access is handed
whole (as one sequence) in every row, here alongside an `item`-access
branch that is split across two rows. -/
theorem list_access_whole_branch_witness :
    ∃ p, branchWrapper ⟨[([0], [Val.atom 1, Val.atom 2])]⟩ ⟨[1], 0⟩ ⟨[2], 0⟩ [1] ACCESS_list =
        [Val.vlist ((⟨[([0], [Val.atom 1, Val.atom 2])]⟩ : DataTree Val).Branch p)] ∧
      ∀ i < (dataWrapper [[Val.atom 8, Val.atom 9],
          branchWrapper ⟨[([0], [Val.atom 1, Val.atom 2])]⟩ ⟨[1], 0⟩ ⟨[2], 0⟩ [1] ACCESS_list]).length,
        ((dataWrapper [[Val.atom 8, Val.atom 9],
            branchWrapper ⟨[([0], [Val.atom 1, Val.atom 2])]⟩ ⟨[1], 0⟩ ⟨[2], 0⟩ [1] ACCESS_list]).getD i []).getD 1 default =
          Val.vlist ((⟨[([0], [Val.atom 1, Val.atom 2])]⟩ : DataTree Val).Branch p) :=
  list_access_whole_branch ⟨[([0], [Val.atom 1, Val.atom 2])]⟩ ⟨[1], 0⟩ ⟨[2], 0⟩ [1]
    [[Val.atom 8, Val.atom 9],
      branchWrapper ⟨[([0], [Val.atom 1, Val.atom 2])]⟩ ⟨[1], 0⟩ ⟨[2], 0⟩ [1] ACCESS_list]
    1 (by simp) rfl

/-! C5: where each argument's branch is looked up. -/

/-- Path selection as the spec words it: take the contiguous slice of
the coordinate starting at `matchedShape.length - ownLength`, of the
length of the argument's own index tuple, and clamp each component to
min(component, ownShape[level] - 1). -/
def specArgPath (d matched : Dimension) (c : List Nat) : List Nat :=
  (List.range d.indices.length).map
    fun k => min (c.getD (matched.length - d.length + k) 0) (d.indices.getD k 0 - 1)

/-- C5: for every matched coordinate and every argument,
`__branchWrapper` hands the user function the branch located at exactly
the spec's clamped `unmatch`-slice path; when every own index is 1 (a
singleton tree) that path is all zeroes, so the single branch is reused
at every coordinate. -/
theorem zip_min_as_range (u v : List Nat) (h : u.length = v.length) :
    (u.zip v).map (fun p => min p.1 (p.2 - 1)) =
      (List.range v.length).map fun k => min (u.getD k 0) (v.getD k 0 - 1) := by
  induction u generalizing v with
  | nil =>
    cases v with
    | nil => rfl
    | cons b v2 => cases h
  | cons a u2 ih =>
    cases v with
    | nil => cases h
    | cons b v2 =>
      have h2 : u2.length = v2.length := by simpa using h
      simp only [List.zip_cons_cons, List.map_cons, List.length_cons,
        List.range_succ_eq_map, List.map_map]
      refine congrArg₂ List.cons rfl ?_
      rw [ih v2 h2]
      rfl

theorem branch_location (tree : DataTree Val) (d matched : Dimension) (c : List Nat)
    (access : Nat)
    (hc : matched.length - d.length + d.indices.length ≤ c.length) :
    branchWrapper tree d matched c access =
      (if access = ACCESS_list then [Val.vlist (tree.Branch (specArgPath d matched c))]
        else tree.Branch (specArgPath d matched c)) ∧
    ((∀ x ∈ d.indices, x = 1) → ∀ y ∈ specArgPath d matched c, y = 0) := by
  have hpath : ((unmatch d matched c).zip d.indices).map (fun p => min p.1 (p.2 - 1)) =
      specArgPath d matched c := by
    have hlen : (unmatch d matched c).length = d.indices.length := by
      simp only [unmatch, unmatchStart, List.length_take, List.length_drop]
      omega
    rw [zip_min_as_range _ _ hlen, specArgPath]
    refine List.map_congr_left fun k hkr => ?_
    have hk : k < d.indices.length := List.mem_range.mp hkr
    have hu : (unmatch d matched c).getD k 0 = c.getD (matched.length - d.length + k) 0 := by
      rw [List.getD_eq_getElem?_getD, List.getD_eq_getElem?_getD]
      simp only [unmatch, unmatchStart, List.getElem?_take, List.getElem?_drop]
      rw [if_pos hk]
    rw [hu]
  constructor
  · simp only [branchWrapper]
    rw [hpath]
  · intro hone y hy
    rw [specArgPath] at hy
    obtain ⟨k, hkr, hky⟩ := List.mem_map.mp hy
    have hk : k < d.indices.length := List.mem_range.mp hkr
    have hone' : d.indices.getD k 0 = 1 :=
      hone _ (by rw [List.getD_eq_getElem d.indices 0 hk]; exact List.getElem_mem _)
    omega

/-- Witness for C5: a singleton tree (own shape (1,)) matched against a
three-wide shape is looked up at path (0) for the coordinate (2); with
`item` access its single branch is handed over as-is. -/
theorem branch_location_witness :
    (branchWrapper ⟨[([0], [Val.atom 5])]⟩ ⟨[1], 0⟩ ⟨[3], 0⟩ [2] ACCESS_item =
      (if ACCESS_item = ACCESS_list then
        [Val.vlist ((⟨[([0], [Val.atom 5])]⟩ : DataTree Val).Branch
          (specArgPath ⟨[1], 0⟩ ⟨[3], 0⟩ [2]))]
       else (⟨[([0], [Val.atom 5])]⟩ : DataTree Val).Branch
          (specArgPath ⟨[1], 0⟩ ⟨[3], 0⟩ [2]))) ∧
    specArgPath ⟨[1], 0⟩ ⟨[3], 0⟩ [2] = [0] ∧
    branchWrapper ⟨[([0], [Val.atom 5])]⟩ ⟨[1], 0⟩ ⟨[3], 0⟩ [2] ACCESS_item = [Val.atom 5] := by
  refine ⟨(branch_location ⟨[([0], [Val.atom 5])]⟩ ⟨[1], 0⟩ ⟨[3], 0⟩ [2] ACCESS_item
    (by decide)).1, by decide, rfl⟩

/-! C6: shape extraction. -/

/-- Lexicographic order on paths, as the spec words it. -/
def lexLE : List Nat → List Nat → Bool
  | [], _ => true
  | _ :: _, [] => false
  | a :: as, b :: bs => if a < b then true else if a = b then lexLE as bs else false

theorem lexLE_refl (p : List Nat) : lexLE p p = true := by
  induction p with
  | nil => rfl
  | cons a as ih => simp [lexLE, ih]

theorem sorted_le_last {R : List Nat → List Nat → Prop}
    (hrefl : ∀ p, R p p) (l : List (List Nat)) (hs : l.Sorted R) :
    ∀ p ∈ l, R p (l.getD (l.length - 1) []) := by
  induction l with
  | nil => intro p hp; cases hp
  | cons a l2 ih =>
    intro p hp
    obtain ⟨hhead, htail⟩ := List.sorted_cons.mp hs
    cases l2 with
    | nil =>
      rcases List.mem_cons.mp hp with h | h
      · subst h; exact hrefl p
      · cases h
    | cons b l3 =>
      have hlast : ((a :: b :: l3).getD ((a :: b :: l3).length - 1) []) =
          ((b :: l3).getD ((b :: l3).length - 1) []) := by
        simp [List.getD_eq_getElem?_getD]
      rw [hlast]
      rcases List.mem_cons.mp hp with h | h
      · subst h
        refine hhead _ ?_
        have : (b :: l3).length - 1 < (b :: l3).length := by simp
        rw [List.getD_eq_getElem _ _ this]
        exact List.getElem_mem this
      · exact ih htail p h

theorem countLeadingZeroes_le (m : List Nat) : countLeadingZeroes m ≤ m.length := by
  induction m with
  | nil => exact Nat.le_refl 0
  | cons x xs ih =>
    by_cases hx : x ≠ 0
    · simp [countLeadingZeroes, hx]
    · simp only [countLeadingZeroes, hx, if_false, List.length_cons]
      exact Nat.succ_le_succ ih

theorem countLeadingZeroes_zeros (m : List Nat) :
    ∀ i < countLeadingZeroes m, m.getD i 1 = 0 := by
  induction m with
  | nil => intro i hi; cases hi
  | cons x xs ih =>
    intro i hi
    by_cases hx : x ≠ 0
    · rw [countLeadingZeroes, if_pos hx] at hi; cases hi
    · rw [countLeadingZeroes, if_neg hx] at hi
      cases i with
      | zero => simpa using Classical.byContradiction fun h => hx fun hx0 => h (by simp [hx0])
      | succ j => exact ih j (Nat.lt_of_succ_lt_succ hi)

theorem countLeadingZeroes_stop (m : List Nat) (h : countLeadingZeroes m < m.length) :
    m.getD (countLeadingZeroes m) 1 ≠ 0 := by
  induction m with
  | nil => cases h
  | cons x xs ih =>
    by_cases hx : x ≠ 0
    · simpa [countLeadingZeroes, hx] using hx
    · rw [countLeadingZeroes, if_neg hx] at h ⊢
      exact ih (Nat.lt_of_succ_lt_succ h)

theorem reverse_getD (r : List Nat) (j : Nat) (hj : j < r.length) :
    r.reverse.getD j 1 = r.getD (r.length - 1 - j) 1 := by
  have hj2 : j < r.reverse.length := by rw [List.length_reverse]; exact hj
  rw [List.getD_eq_getElem _ _ hj2, List.getD_eq_getElem _ _ (by omega), List.getElem_reverse]

/-- The trailing-zero count of a raw path exactly as the spec words it:
starting from the rightmost index and moving left, `tz` consecutive
indices are zero, and (when any index is left) the next one is
non-zero. -/
def TZspec (r : List Nat) (tz : Nat) : Prop :=
  tz ≤ r.length ∧ (∀ i, r.length - tz ≤ i → i < r.length → r.getD i 1 = 0) ∧
    (tz < r.length → r.getD (r.length - tz - 1) 1 ≠ 0)

/-- C6: for every non-empty Tree whose path list is lexicographically
sorted, `getDim` returns a Shape whose indices are exactly the
lexicographically-last path's indices each incremented by one, whose
trailingZeroes counts consecutive zero-valued indices from the right of
that path when the Tree has more than one branch, and which is 0 when
the Tree has exactly one branch regardless of the path's index values. -/
theorem getDim_shape {α : Type} (t : DataTree α) (hne : t.branches ≠ [])
    (hsorted : (t.branches.map Prod.fst).Sorted (fun p q => lexLE p q = true)) :
    (∀ p ∈ t.branches.map Prod.fst, lexLE p (t.PathAt (t.BranchCount - 1)) = true) ∧
    (getDim t).indices = (t.PathAt (t.BranchCount - 1)).map (· + 1) ∧
    (t.BranchCount = 1 → (getDim t).trailingZeroes = 0) ∧
    (1 < t.BranchCount → TZspec (t.PathAt (t.BranchCount - 1)) (getDim t).trailingZeroes) := by
  have hPathAt : t.PathAt (t.BranchCount - 1) =
      (t.branches.map Prod.fst).getD ((t.branches.map Prod.fst).length - 1) [] := by
    rw [DataTree.PathAt, DataTree.BranchCount, List.getD_eq_getElem?_getD,
      List.getD_eq_getElem?_getD, List.getElem?_map, List.length_map]
    cases hb : t.branches[t.branches.length - 1]? with
    | none => rfl
    | some b => rfl
  refine ⟨?_, rfl, fun h1 => ?_, fun hgt => ?_⟩
  · rw [hPathAt]
    exact sorted_le_last lexLE_refl _ hsorted
  · simp [getDim, DataTree.BranchCount] at h1 ⊢
    omega
  · have hcount : (getDim t).trailingZeroes =
        countLeadingZeroes (t.PathAt (t.BranchCount - 1)).reverse := by
      have : t.BranchCount > 1 := hgt
      simp only [getDim]
      rw [if_pos this]
    rw [hcount]
    set r := t.PathAt (t.BranchCount - 1) with hr
    have hle : countLeadingZeroes r.reverse ≤ r.length := by
      have := countLeadingZeroes_le r.reverse
      rwa [List.length_reverse] at this
    refine ⟨hle, fun i h1 h2 => ?_, fun hlt => ?_⟩
    · have htzpos : r.length - 1 - i < countLeadingZeroes r.reverse := by omega
      have := countLeadingZeroes_zeros r.reverse _ htzpos
      rwa [reverse_getD r _ (by omega), show r.length - 1 - (r.length - 1 - i) = i by omega]
        at this
    · have hstop := countLeadingZeroes_stop r.reverse
        (by rw [List.length_reverse]; exact hlt)
      rwa [reverse_getD r _ hlt,
        show r.length - 1 - countLeadingZeroes r.reverse =
          r.length - countLeadingZeroes r.reverse - 1 by omega] at hstop

/-- Witness for C6 at a concrete two-branch tree with paths (0,0) and
(1,0): the shape is (2,1) with one trailing zero level. -/
theorem getDim_shape_witness :
    (getDim (⟨[([0, 0], [5]), ([1, 0], [6])]⟩ : DataTree Nat)).indices =
      ((⟨[([0, 0], [5]), ([1, 0], [6])]⟩ : DataTree Nat).PathAt
        ((⟨[([0, 0], [5]), ([1, 0], [6])]⟩ : DataTree Nat).BranchCount - 1)).map (· + 1) ∧
    (1 < (⟨[([0, 0], [5]), ([1, 0], [6])]⟩ : DataTree Nat).BranchCount →
      TZspec ((⟨[([0, 0], [5]), ([1, 0], [6])]⟩ : DataTree Nat).PathAt
        ((⟨[([0, 0], [5]), ([1, 0], [6])]⟩ : DataTree Nat).BranchCount - 1))
        (getDim (⟨[([0, 0], [5]), ([1, 0], [6])]⟩ : DataTree Nat)).trailingZeroes) := by
  have h := getDim_shape (⟨[([0, 0], [5]), ([1, 0], [6])]⟩ : DataTree Nat)
    (by simp) (by decide)
  exact ⟨h.2.1, h.2.2.2⟩

/-! C1: dimension matching. -/

/-- The right-aligned index of one argument Shape at matched slot j
(offset = matched length - own length), with 1 as the floor outside the
argument's own slots — spec wording. -/
def slotContrib (L : Nat) (d : Dimension) (j : Nat) : Nat :=
  if L - d.length ≤ j ∧ j - (L - d.length) < d.indices.length
  then d.indices.getD (j - (L - d.length)) 0 else 1

/-- Variant of `slotContrib` with 0 (the fold-neutral value) as floor,
used in intermediate fold computations. -/
def slotContrib0 (L : Nat) (d : Dimension) (j : Nat) : Nat :=
  if L - d.length ≤ j ∧ j - (L - d.length) < d.indices.length
  then d.indices.getD (j - (L - d.length)) 0 else 0

theorem ite_set_length (c : Prop) [Decidable c] (m : List Nat) (j x : Nat) :
    (if c then m.set j x else m).length = m.length := by
  split <;> simp

theorem ite_set_getD_ne (c : Prop) [Decidable c] (m : List Nat) (j0 j x : Nat)
    (h : j0 ≠ j) : (if c then m.set j0 x else m).getD j 0 = m.getD j 0 := by
  split
  · rw [List.getD_eq_getElem?_getD, List.getD_eq_getElem?_getD, List.getElem?_set_ne h]
  · rfl

theorem raiseFrom_cons (m : List Nat) (j x : Nat) (xs : List Nat) :
    raiseFrom m j (x :: xs) =
      raiseFrom (if x > m.getD j 0 then m.set j x else m) (j + 1) xs := rfl

theorem raiseFrom_length (xs : List Nat) :
    ∀ (m : List Nat) (j : Nat), (raiseFrom m j xs).length = m.length := by
  induction xs with
  | nil => intro m j; rfl
  | cons x xs ih =>
    intro m j
    rw [raiseFrom_cons, ih, ite_set_length]

theorem raiseFrom_getD_lt (xs : List Nat) :
    ∀ (m : List Nat) (j0 j : Nat), j < j0 →
      (raiseFrom m j0 xs).getD j 0 = m.getD j 0 := by
  induction xs with
  | nil => intro m j0 j h; rfl
  | cons x xs ih =>
    intro m j0 j h
    rw [raiseFrom_cons, ih _ _ _ (Nat.lt_succ_of_lt h),
      ite_set_getD_ne _ _ _ _ _ (Nat.ne_of_gt h)]

theorem raiseFrom_getD (xs : List Nat) :
    ∀ (m : List Nat) (j0 j : Nat), j < m.length →
      (raiseFrom m j0 xs).getD j 0 =
        if j0 ≤ j ∧ j - j0 < xs.length then max (m.getD j 0) (xs.getD (j - j0) 0)
        else m.getD j 0 := by
  induction xs with
  | nil =>
    intro m j0 j hj
    simp [raiseFrom]
  | cons x xs ih =>
    intro m j0 j hj
    rw [raiseFrom_cons]
    rcases Nat.lt_trichotomy j j0 with hlt | heq | hgt
    · rw [raiseFrom_getD_lt xs _ _ _ (Nat.lt_succ_of_lt hlt),
        ite_set_getD_ne _ _ _ _ _ (Nat.ne_of_gt hlt), if_neg (by omega)]
    · subst heq
      rw [raiseFrom_getD_lt xs _ _ _ (Nat.lt_succ_self j)]
      have hset : (if x > m.getD j 0 then m.set j x else m).getD j 0 = max (m.getD j 0) x := by
        by_cases hx : x > m.getD j 0
        · rw [if_pos hx, List.getD_eq_getElem?_getD, List.getElem?_set_self hj]
          simp only [Option.getD_some]
          omega
        · rw [if_neg hx]
          omega
      rw [hset, if_pos ⟨Nat.le_refl j, by simp⟩, Nat.sub_self]
      rfl
    · rw [ih _ (j0 + 1) j (by rw [ite_set_length]; exact hj),
        ite_set_getD_ne _ _ _ _ _ (Nat.ne_of_lt hgt)]
      by_cases hc : j0 + 1 ≤ j ∧ j - (j0 + 1) < xs.length
      · rw [if_pos hc, if_pos (by constructor <;> [omega; (simp only [List.length_cons]; omega)])]
        have hidx : j - j0 = (j - (j0 + 1)) + 1 := by omega
        rw [hidx]
        rfl
      · rw [if_neg hc, if_neg (by simp only [List.length_cons]; omega)]

theorem matchFold_length (dims : List Dimension) :
    ∀ (m : List Nat) (L : Nat),
      (dims.foldl (fun m d => raiseFrom m (L - d.length) d.indices) m).length = m.length := by
  induction dims with
  | nil => intro m L; rfl
  | cons d ds ih =>
    intro m L
    simp only [List.foldl_cons]
    rw [ih, raiseFrom_length]

theorem matchFold_getD (dims : List Dimension) :
    ∀ (m : List Nat) (L j : Nat), j < m.length →
      (dims.foldl (fun m d => raiseFrom m (L - d.length) d.indices) m).getD j 0 =
        dims.foldl (fun a d => max a (slotContrib0 L d j)) (m.getD j 0) := by
  induction dims with
  | nil => intro m L j hj; rfl
  | cons d ds ih =>
    intro m L j hj
    simp only [List.foldl_cons]
    rw [ih _ L j (by rw [raiseFrom_length]; exact hj)]
    rw [raiseFrom_getD _ _ _ _ hj]
    rw [slotContrib0]
    by_cases hc : L - d.length ≤ j ∧ j - (L - d.length) < d.indices.length
    · rw [if_pos hc, if_pos hc]
    · rw [if_neg hc, if_neg hc, Nat.max_zero]

theorem le_foldl_maxG {β : Type} (g : β → Nat) (l : List β) :
    ∀ a : Nat, a ≤ l.foldl (fun x d => max x (g d)) a := by
  induction l with
  | nil => intro a; exact Nat.le_refl a
  | cons y ys ih => intro a; exact le_trans (le_max_left a (g y)) (ih (max a (g y)))

theorem mem_le_foldl_maxG {β : Type} (g : β → Nat) (l : List β) :
    ∀ a : Nat, ∀ d ∈ l, g d ≤ l.foldl (fun x d => max x (g d)) a := by
  induction l with
  | nil => intro a d hd; cases hd
  | cons y ys ih =>
    intro a d hd
    rcases List.mem_cons.mp hd with h | h
    · subst h; exact le_trans (le_max_right a (g d)) (le_foldl_maxG g ys (max a (g d)))
    · exact ih (max a (g y)) d h

theorem foldl_maxG_attained {β : Type} (g : β → Nat) (l : List β) :
    ∀ a : Nat, l.foldl (fun x d => max x (g d)) a = a ∨
      ∃ d ∈ l, l.foldl (fun x d => max x (g d)) a = g d := by
  induction l with
  | nil => intro a; exact Or.inl rfl
  | cons y ys ih =>
    intro a
    rcases ih (max a (g y)) with h | h
    · rcases max_choice a (g y) with hm | hm
      · exact Or.inl (by rw [List.foldl_cons, h, hm])
      · exact Or.inr ⟨y, List.mem_cons_self y ys, by rw [List.foldl_cons, h, hm]⟩
    · obtain ⟨d, hd, hfd⟩ := h
      exact Or.inr ⟨d, List.mem_cons_of_mem y hd, by rw [List.foldl_cons, hfd]⟩

theorem matchDims_indices_length (dims : List Dimension) :
    (matchDims dims).indices.length =
      pyMaxNat (dims.map Dimension.length) + pyMaxNat (dims.map Dimension.trailingZeroes) := by
  simp only [matchDims]
  rw [matchFold_length]
  simp

theorem matchDims_trailingZeroes (dims : List Dimension) :
    (matchDims dims).trailingZeroes = pyMaxNat (dims.map Dimension.trailingZeroes) := rfl

theorem matchDims_length (dims : List Dimension) :
    (matchDims dims).length = pyMaxNat (dims.map Dimension.length) := by
  rw [Dimension.length, matchDims_indices_length, matchDims_trailingZeroes]
  omega

theorem matchDims_getD (dims : List Dimension) (j : Nat)
    (hj : j < (matchDims dims).indices.length) :
    (matchDims dims).indices.getD j 0 =
      dims.foldl (fun a d => max a (slotContrib0 (matchDims dims).length d j)) 1 := by
  have hrepl : (List.replicate (pyMaxNat (dims.map Dimension.length) +
      pyMaxNat (dims.map Dimension.trailingZeroes)) 1).getD j 0 = 1 := by
    rw [List.getD_eq_getElem _ _ (by
      rw [List.length_replicate]
      rw [matchDims_indices_length] at hj
      exact hj), List.getElem_replicate]
  have hlen : j < (List.replicate (pyMaxNat (dims.map Dimension.length) +
      pyMaxNat (dims.map Dimension.trailingZeroes)) 1).length := by
    rw [List.length_replicate]
    rw [matchDims_indices_length] at hj
    exact hj
  calc (matchDims dims).indices.getD j 0
      = dims.foldl (fun a d => max a (slotContrib0 (pyMaxNat (dims.map Dimension.length)) d j))
          ((List.replicate (pyMaxNat (dims.map Dimension.length) +
            pyMaxNat (dims.map Dimension.trailingZeroes)) 1).getD j 0) := by
        simp only [matchDims]
        exact matchFold_getD dims _ _ j hlen
    _ = dims.foldl (fun a d => max a (slotContrib0 (matchDims dims).length d j)) 1 := by
        rw [hrepl, matchDims_length]

/-- C1: for every non-empty collection of well-formed argument Shapes,
`matchDims` returns a Matched Shape whose length is the maximum of the
arguments' lengths, whose trailingZeroes is the maximum of the
arguments' trailingZeroes, and whose index tuple has size
length + trailingZeroes with each slot the maximum, over all arguments,
of that argument's right-aligned index at that position with 1 as the
floor; every slot update stays in bounds (the fold never raises: on
mismatched non-one sizes the larger size wins). -/
theorem matchDims_spec (dims : List Dimension) (hne : dims ≠ [])
    (hwf : ∀ d ∈ dims, d.WF) :
    ((∀ d ∈ dims, d.length ≤ (matchDims dims).length) ∧
      ∃ d ∈ dims, d.length = (matchDims dims).length) ∧
    ((∀ d ∈ dims, d.trailingZeroes ≤ (matchDims dims).trailingZeroes) ∧
      ∃ d ∈ dims, d.trailingZeroes = (matchDims dims).trailingZeroes) ∧
    (matchDims dims).indices.length =
      (matchDims dims).length + (matchDims dims).trailingZeroes ∧
    (∀ d ∈ dims, (matchDims dims).length - d.length + d.indices.length ≤
      (matchDims dims).indices.length) ∧
    ∀ j < (matchDims dims).indices.length,
      1 ≤ (matchDims dims).indices.getD j 0 ∧
      (∀ d ∈ dims, slotContrib (matchDims dims).length d j ≤
        (matchDims dims).indices.getD j 0) ∧
      ((matchDims dims).indices.getD j 0 = 1 ∨
        ∃ d ∈ dims, slotContrib (matchDims dims).length d j =
          (matchDims dims).indices.getD j 0) := by
  have hLlen : (matchDims dims).length = pyMaxNat (dims.map Dimension.length) :=
    matchDims_length dims
  have hT : (matchDims dims).trailingZeroes = pyMaxNat (dims.map Dimension.trailingZeroes) :=
    matchDims_trailingZeroes dims
  refine ⟨⟨fun d hd => ?_, ?_⟩, ⟨fun d hd => ?_, ?_⟩, ?_, fun d hd => ?_, fun j hj => ?_⟩
  · rw [hLlen]; exact le_pyMaxNat _ _ (List.mem_map_of_mem Dimension.length hd)
  · obtain ⟨x, hx, hxeq⟩ := List.mem_map.mp
      (pyMaxNat_mem (dims.map Dimension.length) (by simpa using hne))
    exact ⟨x, hx, by rw [hLlen, hxeq]⟩
  · rw [hT]; exact le_pyMaxNat _ _ (List.mem_map_of_mem Dimension.trailingZeroes hd)
  · obtain ⟨x, hx, hxeq⟩ := List.mem_map.mp
      (pyMaxNat_mem (dims.map Dimension.trailingZeroes) (by simpa using hne))
    exact ⟨x, hx, by rw [hT, hxeq]⟩
  · rw [matchDims_indices_length, hLlen, hT]
  · have h1 : d.length ≤ (matchDims dims).length := by
      rw [hLlen]; exact le_pyMaxNat _ _ (List.mem_map_of_mem Dimension.length hd)
    have h2 : d.trailingZeroes ≤ (matchDims dims).trailingZeroes := by
      rw [hT]; exact le_pyMaxNat _ _ (List.mem_map_of_mem Dimension.trailingZeroes hd)
    have hw : d.trailingZeroes ≤ d.indices.length := hwf d hd
    have h3 : d.indices.length = d.length + d.trailingZeroes := by
      rw [Dimension.length]
      omega
    rw [matchDims_indices_length, ← hLlen, ← hT]
    omega
  · rw [matchDims_getD dims j hj]
    refine ⟨le_foldl_maxG (fun d => slotContrib0 (matchDims dims).length d j) dims 1,
      fun d hd => ?_, ?_⟩
    · by_cases hc : (matchDims dims).length - d.length ≤ j ∧
          j - ((matchDims dims).length - d.length) < d.indices.length
      · have heq : slotContrib (matchDims dims).length d j =
            slotContrib0 (matchDims dims).length d j := by
          rw [slotContrib, slotContrib0, if_pos hc, if_pos hc]
        rw [heq]
        exact mem_le_foldl_maxG (fun d => slotContrib0 (matchDims dims).length d j) dims 1 d hd
      · have heq : slotContrib (matchDims dims).length d j = 1 := by
          rw [slotContrib, if_neg hc]
        rw [heq]
        exact le_foldl_maxG (fun d => slotContrib0 (matchDims dims).length d j) dims 1
    · rcases foldl_maxG_attained (fun d => slotContrib0 (matchDims dims).length d j) dims 1
        with h | h
      · exact Or.inl h
      · obtain ⟨d, hd, hfd⟩ := h
        by_cases hc : (matchDims dims).length - d.length ≤ j ∧
            j - ((matchDims dims).length - d.length) < d.indices.length
        · refine Or.inr ⟨d, hd, ?_⟩
          rw [slotContrib, if_pos hc, hfd, slotContrib0, if_pos hc]
        · have h0 : slotContrib0 (matchDims dims).length d j = 0 := by
            rw [slotContrib0, if_neg hc]
          have hge := le_foldl_maxG (fun d => slotContrib0 (matchDims dims).length d j) dims 1
          rw [hfd, h0] at hge
          cases hge

/-- Witness for C1 at the Shapes (3,2) and (4,): the matched shape is
(3,4) — the sizes 2 and 4 disagree and the larger wins without error. -/
theorem matchDims_spec_witness :
    matchDims [⟨[3, 2], 0⟩, ⟨[4], 0⟩] = ⟨[3, 4], 0⟩ ∧
    (∀ d ∈ [(⟨[3, 2], 0⟩ : Dimension), ⟨[4], 0⟩],
      d.length ≤ (matchDims [⟨[3, 2], 0⟩, ⟨[4], 0⟩]).length) ∧
    ∀ j < (matchDims [(⟨[3, 2], 0⟩ : Dimension), ⟨[4], 0⟩]).indices.length,
      1 ≤ (matchDims [(⟨[3, 2], 0⟩ : Dimension), ⟨[4], 0⟩]).indices.getD j 0 := by
  have h := matchDims_spec [⟨[3, 2], 0⟩, ⟨[4], 0⟩] (by simp)
    (by intro d hd; fin_cases hd <;> simp [Dimension.WF])
  exact ⟨by decide, h.1.1, fun j hj => (h.2.2.2.2 j hj).1⟩

/-! C4: coordinate enumeration and output paths. -/

/-- The cartesian product of index ranges in row-major order (last index
fastest-varying), written structurally — the spec-side description of
the coordinate enumeration. -/
def prodEnum : List Nat → List (List Nat)
  | [] => [[]]
  | d :: ds => (List.range d).flatMap fun i => (prodEnum ds).map (i :: ·)

/-- Row-major mixed-radix digits of j for the radix list l; each digit
is computed from the full (unreduced) j exactly as the source's
`j // rep % d` formula does. -/
def radixDigits (j : Nat) : List Nat → List Nat
  | [] => []
  | d :: ds => j / ds.prod % d :: radixDigits j ds

theorem flatMap_congr_mem {α β : Type} (l : List α) (f g : α → List β)
    (h : ∀ a ∈ l, f a = g a) : l.flatMap f = l.flatMap g := by
  induction l with
  | nil => rfl
  | cons x xs ih =>
    rw [List.flatMap_cons, List.flatMap_cons, h x (List.mem_cons_self x xs),
      ih fun a ha => h a (List.mem_cons_of_mem x ha)]

theorem foldl_mul_eq (xs : List Nat) : ∀ a : Nat, xs.foldl (· * ·) a = a * xs.prod := by
  induction xs with
  | nil => intro a; simp
  | cons y ys ih =>
    intro a
    rw [List.foldl_cons, ih, List.prod_cons, Nat.mul_assoc]

theorem reduceMul_eq_prod (l : List Nat) : reduceMul l = l.prod := by
  cases l with
  | nil => rfl
  | cons x xs =>
    show xs.foldl (· * ·) x = (x :: xs).prod
    rw [foldl_mul_eq, List.prod_cons]

theorem range_mul_flatMap (P : Nat) : ∀ d : Nat,
    List.range (d * P) =
      (List.range d).flatMap fun i => (List.range P).map fun r => i * P + r := by
  intro d
  induction d with
  | zero => simp
  | succ n ih =>
    rw [Nat.succ_mul, List.range_add, ih, List.range_succ, List.flatMap_append]
    congr 1
    simp

theorem radixDigits_add (l : List Nat) : ∀ k r : Nat, l.prod ∣ k →
    radixDigits (k + r) l = radixDigits r l := by
  induction l with
  | nil => intro k r _; rfl
  | cons d ds ih =>
    intro k r hdvd
    rw [List.prod_cons] at hdvd
    by_cases hP : ds.prod = 0
    · have hk : k = 0 := by
        rw [hP, Nat.mul_zero] at hdvd
        exact Nat.eq_zero_of_zero_dvd hdvd
      rw [hk, Nat.zero_add]
    · obtain ⟨c, hc⟩ := hdvd
      have hds : ds.prod ∣ k := ⟨d * c, by rw [hc]; ring⟩
      simp only [radixDigits]
      rw [ih k r hds]
      have hkP : k / ds.prod = c * d := by
        rw [hc, show d * ds.prod * c = c * d * ds.prod by ring]
        exact Nat.mul_div_cancel _ (Nat.pos_of_ne_zero hP)
      rw [Nat.add_div_of_dvd_right hds, hkP, Nat.add_comm, Nat.add_mul_mod_self_right]

theorem prodEnum_eq_map_radix (l : List Nat) (hpos : ∀ x ∈ l, 0 < x) :
    prodEnum l = (List.range l.prod).map fun j => radixDigits j l := by
  induction l with
  | nil => rfl
  | cons d ds ih =>
    have hdspos : ∀ x ∈ ds, 0 < x := fun x hx => hpos x (List.mem_cons_of_mem d hx)
    have hPpos : 0 < ds.prod := List.prod_pos hdspos
    rw [show prodEnum (d :: ds) = (List.range d).flatMap fun i => (prodEnum ds).map (i :: ·)
      from rfl]
    rw [ih hdspos, List.prod_cons, range_mul_flatMap, List.map_flatMap]
    refine flatMap_congr_mem _ _ _ fun i hi => ?_
    have hid : i < d := List.mem_range.mp hi
    rw [List.map_map, List.map_map]
    refine List.map_congr_left fun r hr => ?_
    have hrP : r < ds.prod := List.mem_range.mp hr
    show i :: radixDigits r ds = radixDigits (i * ds.prod + r) (d :: ds)
    rw [show radixDigits (i * ds.prod + r) (d :: ds) =
      (i * ds.prod + r) / ds.prod % d :: radixDigits (i * ds.prod + r) ds from rfl]
    have hdiv : (i * ds.prod + r) / ds.prod % d = i := by
      rw [Nat.add_comm, Nat.add_mul_div_right _ _ hPpos, Nat.div_eq_of_lt hrP, Nat.zero_add,
        Nat.mod_eq_of_lt hid]
    rw [hdiv, radixDigits_add ds (i * ds.prod) r ⟨i, Nat.mul_comm _ _⟩]

theorem rep_row_eq_radix (l : List Nat) (hpos : ∀ x ∈ l, 0 < x) (j : Nat) :
    (((List.range l.length).map fun i => l.prod / (l.take (i + 1)).prod).zip l).map
      (fun rd => j / rd.1 % rd.2) = radixDigits j l := by
  induction l with
  | nil => rfl
  | cons d ds ih =>
    have hdpos : 0 < d := hpos d (List.mem_cons_self _ _)
    have hdspos : ∀ x ∈ ds, 0 < x := fun x hx => hpos x (List.mem_cons_of_mem d hx)
    have htail : (List.range ds.length).map
        ((fun i => (d :: ds).prod / ((d :: ds).take (i + 1)).prod) ∘ Nat.succ) =
        (List.range ds.length).map fun i => ds.prod / (ds.take (i + 1)).prod := by
      refine List.map_congr_left fun i hi => ?_
      show (d :: ds).prod / ((d :: ds).take (i + 1 + 1)).prod = ds.prod / (ds.take (i + 1)).prod
      rw [List.take_succ_cons, List.prod_cons, List.prod_cons]
      exact Nat.mul_div_mul_left _ _ hdpos
    have hhead : (d :: ds).prod / ((d :: ds).take (0 + 1)).prod = ds.prod := by
      rw [List.take_succ_cons, List.take_zero, List.prod_cons, List.prod_cons, List.prod_nil,
        Nat.mul_one]
      exact Nat.mul_div_cancel_left _ hdpos
    rw [show (d :: ds).length = ds.length + 1 from rfl, List.range_succ_eq_map, List.map_cons,
      List.map_map, htail, hhead, List.zip_cons_cons, List.map_cons, ih hdspos]
    rfl

theorem generatePathsIndices_eq_prodEnum (dim : Dimension)
    (hpos : ∀ x ∈ dim.indices, 0 < x) :
    generatePathsIndices dim = prodEnum dim.indices := by
  simp only [generatePathsIndices, reduceMul_eq_prod]
  rw [prodEnum_eq_map_radix dim.indices hpos]
  exact List.map_congr_left fun j hj => rep_row_eq_radix dim.indices hpos j

theorem matchDims_indices_pos (dims : List Dimension) :
    ∀ x ∈ (matchDims dims).indices, 0 < x := by
  intro x hx
  obtain ⟨j, hj, hxj⟩ := List.mem_iff_getElem.mp hx
  have hgd : (matchDims dims).indices.getD j 0 = x := by
    rw [List.getD_eq_getElem _ _ hj, hxj]
  have hchar := matchDims_getD dims j hj
  rw [hgd] at hchar
  have h1 := le_foldl_maxG (fun d => slotContrib0 (matchDims dims).length d j) dims 1
  omega

/-- C4: for every call of the broadcast loop, the sequence of output
Tree paths is exactly the row-major cartesian-product enumeration of the
Matched Shape's coordinates (computed by integer-to-mixed-radix
conversion), in that order — except that a coordinate whose first
invocation result is a list contributes one extra sub-path level
enumerating that coordinate's rows. -/
theorem call_output_paths (f : List Val → Val) (args : List (DataTree Val))
    (access : List Nat) :
    (callOnTrees f args access).branches.map Prod.fst =
      (prodEnum (matchDims (args.map getDim)).indices).flatMap fun c =>
        match ((dataWrapper (branchesAt args (args.map getDim)
            (matchDims (args.map getDim)) access c)).map f).head? with
        | some v =>
          if v.isList then
            (List.range ((dataWrapper (branchesAt args (args.map getDim)
              (matchDims (args.map getDim)) access c)).map f).length).map fun i => c ++ [i]
          else [c]
        | none => [c] := by
  simp only [callOnTrees]
  rw [← generatePathsIndices_eq_prodEnum _ (matchDims_indices_pos (args.map getDim)),
    List.map_flatMap]
  refine flatMap_congr_mem _ _ _ fun c hc => ?_
  cases hh : ((dataWrapper (branchesAt args (args.map getDim)
      (matchDims (args.map getDim)) access c)).map f).head? with
  | none => simp [hh]
  | some v =>
    by_cases hv : v.isList
    · simp only [hv, if_true, List.map_map]
      have hcomp : (Prod.fst ∘ fun ie : Nat × Val => (c ++ [ie.1], ie.2.elements)) =
          (fun i => c ++ [i]) ∘ Prod.fst := rfl
      rw [hcomp, ← List.map_map, List.enum_map_fst]
    · simp only [hv, if_false]
      rfl

end GhUtil
